import Mathlib

/-!
Shallow embedding of the coroutine event primitive `tfcoro::awaitable_event`
(src/include/sync.h).

The C++ shared state is

    struct node { node *next; std::coroutine_handle<> handle; };
    struct state {
      std::mutex mutex;
      node *head = nullptr;
      relaxed_atomic<node **> last = &head;
      void set();
      bool await_ready() const noexcept;
      bool await_suspend(node &n) noexcept;
    };

Wait nodes live on the stacks of the waiting coroutines; we model the node
memory as a total map from node identifiers (addresses) to node values, kept
inside the `State` record.  A `node *` is `Option Nat` (`none` = nullptr).
The `last` field is a `node **`: it is either nullptr (`none`) or the address
of a location holding a `node *` — the address of `head` itself
(`some none`) or the address of the `next` field of node `m` (`some (some m)`).
Coroutine handles are opaque, modelled as `Nat`.

All mutation in the C++ code happens under `state::mutex`, and `set` invokes
the captured handles only after releasing it; the embedding therefore models
each operation as an atomic function on `State`.  The waiter walk in
`state::set` is a `while` loop over a physically finite list; the embedding
makes this explicit by giving the walk a fuel argument, and the theorems are
stated for any fuel at least the length of the represented list.
-/

namespace TFcoro

/-- One wait node, `struct node` of sync.h: a next pointer and the stored
coroutine handle. -/
structure Node where
  next : Option Nat
  handle : Nat
deriving DecidableEq

/-- The shared state of sync.h together with the node memory.  `head` is the
`node *head` field, `last` the `relaxed_atomic<node **> last` field
(initialised to `&head`, i.e. `some none`), and `nodes` the contents of every
wait node object. -/
structure State where
  head : Option Nat
  last : Option (Option Nat)
  nodes : Nat → Node

/-- Pointwise update of the node memory. -/
def updateNodes (f : Nat → Node) (i : Nat) (v : Node) : Nat → Node :=
  fun j => if j = i then v else f j

/-- Write the `next` field of node `i` (the store `i->next = p`). -/
def setNext (f : Nat → Node) (i : Nat) (p : Option Nat) : Nat → Node :=
  updateNodes f i { f i with next := p }

/-- Write the `handle` field of node `i` (the store `i->handle = h`). -/
def setHandle (f : Nat → Node) (i : Nat) (h : Nat) : Nat → Node :=
  updateNodes f i { f i with handle := h }

/-- A freshly constructed state: `head = nullptr`, `last = &head`; the node
memory `mem` (stack memory of not-yet-linked nodes) is arbitrary. -/
def initState (mem : Nat → Node) : State :=
  { head := none, last := some none, nodes := mem }

/-- Dereference a `node **` slot: `some none` is `&head`, `some (some m)` is
`&(m->next)`.  Used to state what `await_suspend` wrote through the cursor. -/
def readSlot (s : State) : Option Nat → Option Nat
  | none => s.head
  | some m => (s.nodes m).next

/-- The pointer walk of `state::set`:
`while (rest) { auto handle = rest->handle; rest = rest->next; handle(); }`.
Returns the node identifiers visited in order.  `fuel` bounds the number of
iterations; on the physically finite lists the code builds, any fuel at least
the list length gives the full walk. -/
def walk (nodes : Nat → Node) : Nat → Option Nat → List Nat
  | _, none => []
  | 0, some _ => []
  | fuel + 1, some i => i :: walk nodes fuel (nodes i).next

/-- `state::set` of sync.h: under the lock, store nullptr into `last` and
exchange `head` with nullptr, capturing the old list; then) walk the detached
list outside the lock, invoking each visited node's handle.  Returns the new
state and the sequence of handles invoked, in invocation order. -/
def State.set (s : State) (fuel : Nat) : State × List Nat :=
  ({ s with last := none, head := none },
   (walk s.nodes fuel s.head).map fun i => (s.nodes i).handle)

/-- `state::await_ready` of sync.h: `return !last.load();` — true iff the
cursor is null. -/
def State.await_ready (s : State) : Bool :=
  s.last.isNone

/-- `state::await_suspend` of sync.h: under the lock re-read `last`; if null
return false; otherwise `*p = &n; last = &n.next; n.next = nullptr;` and
return true. -/
def State.await_suspend (s : State) (n : Nat) : Bool × State :=
  match s.last with
  | none => (false, s)
  | some p =>
    let s1 : State :=
      match p with
      | none => { s with head := some n }
      | some m => { s with nodes := setNext s.nodes m (some n) }
    let s2 : State := { s1 with last := some (some n) }
    let s3 : State := { s2 with nodes := setNext s2.nodes n none }
    (true, s3)

/-- `awaiter::await_suspend` of sync.h: store the coroutine handle into the
stack node (`n.handle = handle`), then try to link via
`state::await_suspend`. -/
def awaiterSuspend (s : State) (n : Nat) (h : Nat) : Bool × State :=
  State.await_suspend { s with nodes := setHandle s.nodes n h } n

/-- The chain representation predicate: `chainB nodes p ws` holds when the
pointer chain starting at `p` visits exactly the nodes `ws` in order and is
null-terminated. -/
def chainB (nodes : Nat → Node) : Option Nat → List Nat → Bool
  | none, [] => true
  | none, _ :: _ => false
  | some _, [] => false
  | some i, j :: rest => i == j && chainB nodes (nodes i).next rest

/-- Well-formedness of an unfired state holding the waiters `ws` (in linking
order): the chain from `head` is exactly `ws`, the waiters are pairwise
distinct objects, and the cursor `last` points at the `next` field of the
final waiter — at `head` itself when the list is empty. -/
def unfiredWf (s : State) (ws : List Nat) : Prop :=
  chainB s.nodes s.head ws = true ∧ ws.Nodup ∧ s.last = some ws.getLast?

/-- Shape of a fired state: cursor null and wait list detached. -/
def firedWf (s : State) : Prop :=
  s.last = none ∧ s.head = none

/-- An operation applied to the shared state: a call to `set` (with walk
fuel) or one awaiter reaching `await_suspend` with its stack node `n` and its
coroutine handle `h`. -/
inductive Op where
  | setOp (fuel : Nat) : Op
  | awaitOp (n h : Nat) : Op

/-- State transition of one operation. -/
def applyOp (s : State) : Op → State
  | .setOp fuel => (s.set fuel).1
  | .awaitOp n h => (awaiterSuspend s n h).2

/-- The state after a sequence of operations on a freshly constructed
event. -/
def run (mem : Nat → Node) (ops : List Op) : State :=
  ops.foldl applyOp (initState mem)

/-- Whether an operation is a `set` call. -/
def isSetOp : Op → Bool
  | .setOp _ => true
  | .awaitOp _ _ => false

/-- Whether a trace contains at least one `set` call. -/
def hasSet (ops : List Op) : Bool :=
  ops.any isSetOp

/-- The node identifiers of the await operations of a trace, in order. -/
def awaitIds (ops : List Op) : List Nat :=
  ops.foldr (fun op acc => match op with
    | .setOp _ => acc
    | .awaitOp n _ => n :: acc) []

/-- Linking a batch of awaiters in order: each pair is (node id, handle). -/
def linkAll (s : State) (ps : List (Nat × Nat)) : State :=
  ps.foldl (fun t p => (awaiterSuspend t p.1 p.2).2) s

lemma updateNodes_self (f : Nat → Node) (i : Nat) (v : Node) :
    updateNodes f i v i = v := by
  simp [updateNodes]

lemma updateNodes_other (f : Nat → Node) (i : Nat) (v : Node) (j : Nat)
    (h : j ≠ i) : updateNodes f i v j = f j := by
  simp [updateNodes, h]

lemma setNext_self (f : Nat → Node) (i : Nat) (p : Option Nat) :
    setNext f i p i = { f i with next := p } :=
  updateNodes_self f i _

lemma setNext_other (f : Nat → Node) (i : Nat) (p : Option Nat) (j : Nat)
    (h : j ≠ i) : setNext f i p j = f j :=
  updateNodes_other f i _ j h

lemma setNext_handle (f : Nat → Node) (i : Nat) (p : Option Nat) (j : Nat) :
    (setNext f i p j).handle = (f j).handle := by
  by_cases h : j = i
  · subst h; rw [setNext_self]
  · rw [setNext_other f i p j h]

lemma setHandle_self (f : Nat → Node) (i : Nat) (h : Nat) :
    setHandle f i h i = { f i with handle := h } :=
  updateNodes_self f i _

lemma setHandle_other (f : Nat → Node) (i : Nat) (h : Nat) (j : Nat)
    (hj : j ≠ i) : setHandle f i h j = f j :=
  updateNodes_other f i _ j hj

/-- The chain representation only looks at the nodes it lists: memories that
agree on `ws` give the same verdict. -/
lemma chainB_agree (f g : Nat → Node) (ws : List Nat) :
    ∀ (p : Option Nat), (∀ i ∈ ws, g i = f i) →
      chainB g p ws = chainB f p ws := by
  induction ws with
  | nil => intro p _; cases p <;> rfl
  | cons j rest ih =>
    intro p hag
    cases p with
    | none => rfl
    | some i =>
      simp only [chainB]
      by_cases hij : i = j
      · subst hij
        rw [hag i (List.mem_cons_self i rest),
          ih (f i).next (fun k hk => hag k (List.mem_cons_of_mem _ hk))]
      · have hb : (i == j) = false := by simpa using hij
        simp [hb]

/-- With enough fuel, the pointer walk of `set` visits exactly the
represented chain. -/
lemma walk_of_chain (nodes : Nat → Node) (ws : List Nat) :
    ∀ (p : Option Nat) (fuel : Nat),
      chainB nodes p ws = true → ws.length ≤ fuel →
      walk nodes fuel p = ws := by
  induction ws with
  | nil =>
    intro p fuel hch _
    cases p with
    | none => cases fuel <;> rfl
    | some i => simp [chainB] at hch
  | cons j rest ih =>
    intro p fuel hch hfuel
    cases p with
    | none => simp [chainB] at hch
    | some i =>
      simp only [chainB, Bool.and_eq_true, beq_iff_eq] at hch
      obtain ⟨rfl, hc⟩ := hch
      cases fuel with
      | zero => simp at hfuel
      | succ f =>
        simp only [walk, List.cons.injEq, true_and]
        exact ih (nodes i).next f hc (by simpa using hfuel)

lemma getLast?_mem {l : List Nat} {t : Nat} (h : l.getLast? = some t) :
    t ∈ l := by
  obtain ⟨hne, he⟩ :=
    List.mem_getLast?_eq_getLast (show t ∈ l.getLast? from h)
  exact he ▸ List.getLast_mem hne

/-- Appending one fresh node at the tail: the writes
`t->next = &n; n.next = nullptr` extend the represented chain by `n`. -/
lemma chainB_snoc (f : Nat → Node) (n : Nat) :
    ∀ (ws : List Nat) (p : Option Nat) (t : Nat),
      chainB f p ws = true → ws.Nodup → n ∉ ws → ws.getLast? = some t →
      chainB (setNext (setNext f t (some n)) n none) p (ws ++ [n]) = true := by
  intro ws
  induction ws with
  | nil => intro p t _ _ _ hl; simp at hl
  | cons j rest ih =>
    intro p t hch hnd hn hl
    cases p with
    | none => simp [chainB] at hch
    | some i =>
      simp only [chainB, Bool.and_eq_true, beq_iff_eq] at hch
      obtain ⟨rfl, hc⟩ := hch
      have hni : n ≠ i := fun e => hn (e ▸ List.mem_cons_self i rest)
      have hin : ¬ i = n := fun e => hni e.symm
      cases rest with
      | nil =>
        have ht : t = i := by simp at hl; omega
        subst ht
        have hnext : (f t).next = none := by
          cases he : (f t).next with
          | none => rfl
          | some m => rw [he] at hc; simp [chainB] at hc
        simp [chainB, setNext, updateNodes, hin]
      | cons k rest2 =>
        have hl2 : (k :: rest2).getLast? = some t := by
          rwa [List.getLast?_cons_cons] at hl
        have hmem : t ∈ k :: rest2 := getLast?_mem hl2
        have hnd2 : (k :: rest2).Nodup := (List.nodup_cons.mp hnd).2
        have hit : ¬ i = t := fun e =>
          (List.nodup_cons.mp hnd).1 (e ▸ hmem)
        have hn2 : n ∉ k :: rest2 := fun e =>
          hn (List.mem_cons_of_mem i e)
        simp only [List.cons_append, chainB, beq_self_eq_true, Bool.true_and]
        rw [setNext_other _ _ _ _ hin, setNext_other _ _ _ _ hit]
        exact ih (f i).next t hc hnd2 hn2 hl2

lemma nodup_snoc {ws : List Nat} {n : Nat} (h1 : ws.Nodup) (h2 : n ∉ ws) :
    (ws ++ [n]).Nodup := by
  refine List.Nodup.append h1 (List.nodup_singleton n) ?_
  intro a ha hb
  have : a = n := by simpa using hb
  exact h2 (this ▸ ha)

lemma getLast?_snoc (ws : List Nat) (n : Nat) :
    (ws ++ [n]).getLast? = some n := by
  rw [List.getLast?_append_cons]
  rfl

/-- Computed form of `state::await_suspend` when the cursor points at
`head`. -/
lemma await_suspend_eq_headSlot (s : State) (n : Nat)
    (hl : s.last = some none) :
    s.await_suspend n =
      (true, { head := some n, last := some (some n),
               nodes := setNext s.nodes n none }) := by
  cases s with
  | mk hd ls mem =>
    simp only at hl
    subst hl
    rfl

/-- Computed form of `state::await_suspend` when the cursor points at the
`next` field of node `t`. -/
lemma await_suspend_eq_tailSlot (s : State) (n t : Nat)
    (hl : s.last = some (some t)) :
    s.await_suspend n =
      (true, { head := s.head, last := some (some n),
               nodes := setNext (setNext s.nodes t (some n)) n none }) := by
  cases s with
  | mk hd ls mem =>
    simp only at hl
    subst hl
    rfl

/-- A successful `state::await_suspend` on a well-formed unfired state links
`n` at the tail: it returns true, the new state represents `ws ++ [n]`, and
no stored handle changes. -/
lemma await_suspend_wf (s : State) (ws : List Nat) (n : Nat)
    (hwf : unfiredWf s ws) (hn : n ∉ ws) :
    (s.await_suspend n).1 = true ∧
    unfiredWf (s.await_suspend n).2 (ws ++ [n]) ∧
    (∀ j, ((s.await_suspend n).2.nodes j).handle = (s.nodes j).handle) := by
  obtain ⟨hch, hnd, hlast⟩ := hwf
  cases ws with
  | nil =>
    have hl : s.last = some none := by simpa using hlast
    rw [await_suspend_eq_headSlot s n hl]
    refine ⟨rfl, ⟨?_, by simp, rfl⟩, fun j => setNext_handle s.nodes n none j⟩
    show chainB (setNext s.nodes n none) (some n) [n] = true
    simp [chainB, setNext, updateNodes]
  | cons w ws2 =>
    have hne : w :: ws2 ≠ [] := List.cons_ne_nil w ws2
    have hp : (w :: ws2).getLast? = some ((w :: ws2).getLast hne) :=
      List.getLast?_eq_getLast_of_ne_nil hne
    have hl : s.last = some (some ((w :: ws2).getLast hne)) := by
      rw [hlast, hp]
    rw [await_suspend_eq_tailSlot s n _ hl]
    refine ⟨rfl, ⟨?_, nodup_snoc hnd hn, ?_⟩,
      fun j => by rw [setNext_handle, setNext_handle]⟩
    · exact chainB_snoc s.nodes n (w :: ws2) s.head _ hch hnd hn hp
    · show some (some n) = some ((w :: ws2 ++ [n]).getLast?)
      rw [getLast?_snoc]

/-- `awaiter::await_suspend` on a well-formed unfired state: stores the
handle into the fresh node and links it at the tail. -/
lemma awaiterSuspend_wf (s : State) (ws : List Nat) (n h : Nat)
    (hwf : unfiredWf s ws) (hn : n ∉ ws) :
    (awaiterSuspend s n h).1 = true ∧
    unfiredWf (awaiterSuspend s n h).2 (ws ++ [n]) ∧
    (∀ j, j ≠ n → ((awaiterSuspend s n h).2.nodes j).handle = (s.nodes j).handle) ∧
    ((awaiterSuspend s n h).2.nodes n).handle = h := by
  obtain ⟨hch, hnd, hlast⟩ := hwf
  have hwf0 : unfiredWf { s with nodes := setHandle s.nodes n h } ws := by
    refine ⟨?_, hnd, hlast⟩
    rw [chainB_agree s.nodes (setHandle s.nodes n h) ws s.head
      (fun i hi => setHandle_other s.nodes n h i (fun e => hn (e ▸ hi)))]
    exact hch
  obtain ⟨h1, h2, h3⟩ :=
    await_suspend_wf { s with nodes := setHandle s.nodes n h } ws n hwf0 hn
  have e : awaiterSuspend s n h =
      State.await_suspend { s with nodes := setHandle s.nodes n h } n := rfl
  refine ⟨by rw [e]; exact h1, by rw [e]; exact h2, fun j hj => ?_, ?_⟩
  · rw [e, h3 j]
    show (setHandle s.nodes n h j).handle = (s.nodes j).handle
    rw [setHandle_other s.nodes n h j hj]
  · rw [e, h3 n]
    show (setHandle s.nodes n h n).handle = h
    rw [setHandle_self]

lemma walk_none (nodes : Nat → Node) (fuel : Nat) :
    walk nodes fuel none = [] := by
  cases fuel <;> rfl

lemma firedWf_set (s : State) (fuel : Nat) : firedWf (s.set fuel).1 :=
  ⟨rfl, rfl⟩

lemma await_suspend_fired (s : State) (n : Nat) (h : s.last = none) :
    s.await_suspend n = (false, s) := by
  simp [State.await_suspend, h]

lemma awaiterSuspend_fired (s : State) (n h : Nat) (hl : s.last = none) :
    awaiterSuspend s n h = (false, { s with nodes := setHandle s.nodes n h }) := by
  simp [awaiterSuspend, State.await_suspend, hl]

/-- `set` on an already-fired, already-emptied state changes nothing and
invokes nothing. -/
lemma set_of_fired (s : State) (fuel : Nat) (hfw : firedWf s) :
    s.set fuel = (s, []) := by
  obtain ⟨hl, hh⟩ := hfw
  cases s with
  | mk hd ls mem =>
    simp only at hl hh
    subst hl
    subst hh
    simp [State.set, walk_none]

lemma init_wf (mem : Nat → Node) : unfiredWf (initState mem) [] :=
  ⟨rfl, List.nodup_nil, rfl⟩

lemma hasSet_cons (op : Op) (ops : List Op) :
    hasSet (op :: ops) = (isSetOp op || hasSet ops) := by
  simp [hasSet]

lemma applyOp_last (s : State) (op : Op) :
    ((applyOp s op).last = none ↔ (s.last = none ∨ isSetOp op = true)) := by
  cases op with
  | setOp fuel => simp [applyOp, State.set, isSetOp]
  | awaitOp n h =>
    simp only [applyOp, isSetOp]
    cases hl : s.last with
    | none => rw [awaiterSuspend_fired s n h hl]; simp [hl]
    | some p =>
      have hres : (awaiterSuspend s n h).2.last = some (some n) := by
        cases p <;> simp [awaiterSuspend, State.await_suspend, hl]
      simp [hres, hl]

lemma foldl_last_none (ops : List Op) : ∀ s : State,
    ((ops.foldl applyOp s).last = none ↔
      (s.last = none ∨ hasSet ops = true)) := by
  induction ops with
  | nil => intro s; simp [hasSet]
  | cons op ops ih =>
    intro s
    rw [List.foldl_cons, ih (applyOp s op), applyOp_last, hasSet_cons]
    simp [or_assoc]

/-- The cursor of a run is null exactly when the trace contains a `set`. -/
lemma run_last (mem : Nat → Node) (ops : List Op) :
    ((run mem ops).last = none ↔ hasSet ops = true) := by
  rw [run, foldl_last_none]
  simp [initState]

lemma applyOp_fired (s : State) (op : Op) (h : firedWf s) :
    firedWf (applyOp s op) := by
  cases op with
  | setOp fuel => exact firedWf_set s fuel
  | awaitOp n hh =>
    show firedWf (awaiterSuspend s n hh).2
    rw [awaiterSuspend_fired s n hh h.1]
    exact ⟨h.1, h.2⟩

lemma foldl_fired (ops : List Op) : ∀ s : State, firedWf s →
    firedWf (ops.foldl applyOp s) := by
  induction ops with
  | nil => intro s h; exact h
  | cons op ops ih => intro s h; exact ih (applyOp s op) (applyOp_fired s op h)

lemma foldl_hasSet_fired (ops : List Op) : ∀ s : State, hasSet ops = true →
    firedWf (ops.foldl applyOp s) := by
  induction ops with
  | nil => intro s h; simp [hasSet] at h
  | cons op ops ih =>
    intro s h
    cases op with
    | setOp fuel => exact foldl_fired ops _ (firedWf_set s fuel)
    | awaitOp n hh =>
      have : hasSet ops = true := by simpa [hasSet_cons, isSetOp] using h
      exact ih (applyOp s (.awaitOp n hh)) this

/-- After any trace containing a `set`, the state is fired and emptied. -/
lemma run_fired (mem : Nat → Node) (ops : List Op) (h : hasSet ops = true) :
    firedWf (run mem ops) :=
  foldl_hasSet_fired ops (initState mem) h

/-- While no `set` has occurred, a trace of awaits with pairwise-distinct
stack nodes keeps the state well formed, with the waiters linked in arrival
order. -/
lemma foldl_unfiredWf (ops : List Op) : ∀ (s : State) (ws : List Nat),
    unfiredWf s ws → hasSet ops = false →
    (∀ i ∈ awaitIds ops, i ∉ ws) → (awaitIds ops).Nodup →
    unfiredWf (ops.foldl applyOp s) (ws ++ awaitIds ops) := by
  induction ops with
  | nil => intro s ws hwf _ _ _; simpa [awaitIds] using hwf
  | cons op ops ih =>
    intro s ws hwf hns hfresh hnd
    cases op with
    | setOp fuel => simp [hasSet_cons, isSetOp] at hns
    | awaitOp n h =>
      have hids : awaitIds (Op.awaitOp n h :: ops) = n :: awaitIds ops := rfl
      rw [hids] at hfresh hnd
      have hn : n ∉ ws := hfresh n (List.mem_cons_self n _)
      obtain ⟨_, hwf1, _, _⟩ := awaiterSuspend_wf s ws n h hwf hn
      have hns2 : hasSet ops = false := by
        simpa [hasSet_cons, isSetOp] using hns
      have hnd2 : (awaitIds ops).Nodup := (List.nodup_cons.mp hnd).2
      have hfresh2 : ∀ i ∈ awaitIds ops, i ∉ ws ++ [n] := by
        intro i hi hmem
        rcases List.mem_append.mp hmem with h1 | h1
        · exact hfresh i (List.mem_cons_of_mem n hi) h1
        · have he : i = n := by simpa using h1
          exact (List.nodup_cons.mp hnd).1 (he ▸ hi)
      have hres := ih (applyOp s (.awaitOp n h)) (ws ++ [n]) hwf1 hns2 hfresh2 hnd2
      rw [List.foldl_cons, hids]
      simpa [List.append_assoc] using hres

/-- Linking a batch of awaiters in order on a well-formed unfired state:
the waiters end up appended in order, each fresh node stores its own
handle, and untouched nodes keep theirs. -/
lemma linkAll_wf (ps : List (Nat × Nat)) : ∀ (s : State) (ws : List Nat),
    unfiredWf s ws → (∀ p ∈ ps, p.1 ∉ ws) → (ps.map Prod.fst).Nodup →
    unfiredWf (linkAll s ps) (ws ++ ps.map Prod.fst) ∧
    (∀ j, (∀ p ∈ ps, j ≠ p.1) →
      ((linkAll s ps).nodes j).handle = (s.nodes j).handle) ∧
    (∀ p ∈ ps, ((linkAll s ps).nodes p.1).handle = p.2) := by
  induction ps with
  | nil =>
    intro s ws hwf _ _
    exact ⟨by simpa using hwf, fun j _ => rfl, by simp⟩
  | cons q ps ih =>
    intro s ws hwf hfresh hnd
    obtain ⟨n, h⟩ := q
    have hn : n ∉ ws := hfresh (n, h) (List.mem_cons_self _ _)
    obtain ⟨_, hwf1, hpres, hset⟩ := awaiterSuspend_wf s ws n h hwf hn
    have hmap : ((n, h) :: ps).map Prod.fst = n :: ps.map Prod.fst := rfl
    rw [hmap] at hnd
    have hnd2 := (List.nodup_cons.mp hnd).2
    have hnmem : n ∉ ps.map Prod.fst := (List.nodup_cons.mp hnd).1
    have hfresh2 : ∀ p ∈ ps, p.1 ∉ ws ++ [n] := by
      intro p hp hmem
      rcases List.mem_append.mp hmem with h1 | h1
      · exact hfresh p (List.mem_cons_of_mem _ hp) h1
      · have he : p.1 = n := by simpa using h1
        exact hnmem (he ▸ List.mem_map_of_mem Prod.fst hp)
    have hlink : linkAll s ((n, h) :: ps) =
        linkAll (awaiterSuspend s n h).2 ps := rfl
    obtain ⟨ihwf, ihpres, ihhand⟩ :=
      ih (awaiterSuspend s n h).2 (ws ++ [n]) hwf1 hfresh2 hnd2
    refine ⟨?_, ?_, ?_⟩
    · rw [hlink, hmap]
      simpa [List.append_assoc] using ihwf
    · intro j hj
      have hjn : j ≠ n := hj (n, h) (List.mem_cons_self _ _)
      rw [hlink, ihpres j (fun p hp => hj p (List.mem_cons_of_mem _ hp)),
        hpres j hjn]
    · intro p hp
      rcases List.mem_cons.mp hp with h1 | h1
      · subst h1
        rw [hlink, ihpres n (fun p hp => fun e =>
          hnmem (e ▸ List.mem_map_of_mem Prod.fst hp)), hset]
      · rw [hlink]
        exact ihhand p h1

/-- Concrete node memory for witnesses: nodes 1 and 2 already form a linked
chain 1 → 2. -/
def wMem : Nat → Node := fun i =>
  if i = 1 then { next := some 2, handle := 10 }
  else if i = 2 then { next := none, handle := 20 }
  else { next := none, handle := 0 }

/-- Concrete unfired state for witnesses: waiters 1 and 2 linked, cursor at
node 2's next field. -/
def wState : State := { head := some 1, last := some (some 2), nodes := wMem }

/-- Blank node memory for witnesses. -/
def wMem0 : Nat → Node := fun _ => { next := none, handle := 0 }

/-- C1: for an event whose wait list holds the `N` linked waiters `ws`, one
call to `set()` invokes exactly the resumption callbacks of those waiters,
in list order, and the walk visits every linked waiter exactly once — no
waiter is resumed twice and none is left unresumed. -/
theorem set_resumes_each_linked_waiter_once (s : State) (ws : List Nat)
    (fuel : Nat) (hwf : unfiredWf s ws) (hfuel : ws.length ≤ fuel) :
    (s.set fuel).2 = ws.map (fun i => (s.nodes i).handle) ∧
    ∀ n ∈ ws, List.count n (walk s.nodes fuel s.head) = 1 := by
  obtain ⟨hch, hnd, _⟩ := hwf
  have hwalk := walk_of_chain s.nodes ws s.head fuel hch hfuel
  refine ⟨?_, fun n hn => ?_⟩
  · show (walk s.nodes fuel s.head).map _ = _
    rw [hwalk]
  · rw [hwalk]
    exact List.count_eq_one_of_mem hnd hn

/-- Witness for C1 on the concrete two-waiter state. -/
theorem set_resumes_each_linked_waiter_once_witness :
    (wState.set 2).2 = [1, 2].map (fun i => (wState.nodes i).handle) ∧
    ∀ n ∈ [1, 2], List.count n (walk wState.nodes 2 wState.head) = 1 :=
  set_resumes_each_linked_waiter_once wState [1, 2] 2
    ⟨by decide, by decide, by decide⟩ (by decide)

/-- C2: waiters linked in some order by `await_suspend` (all before `set()`)
have their callbacks invoked by `set()` in exactly that order, oldest
first. -/
theorem set_resumes_in_fifo_order (mem : Nat → Node)
    (ps : List (Nat × Nat)) (fuel : Nat)
    (hnd : (ps.map Prod.fst).Nodup) (hfuel : ps.length ≤ fuel) :
    ((linkAll (initState mem) ps).set fuel).2 = ps.map Prod.snd := by
  obtain ⟨hwf, _, hhand⟩ :=
    linkAll_wf ps (initState mem) [] (init_wf mem) (by simp) hnd
  rw [List.nil_append] at hwf
  obtain ⟨hch, _, _⟩ := hwf
  have hwalk := walk_of_chain _ (ps.map Prod.fst) _ fuel hch
    (by simpa using hfuel)
  show (walk _ fuel _).map _ = _
  rw [hwalk, List.map_map]
  exact List.map_congr_left (fun p hp => hhand p hp)

/-- Witness for C2: linking (node 1, handle 10) then (node 2, handle 20)
makes `set()` invoke 10 then 20. -/
theorem set_resumes_in_fifo_order_witness :
    ((linkAll (initState wMem0) [(1, 10), (2, 20)]).set 2).2 =
      [(1, 10), (2, 20)].map Prod.snd :=
  set_resumes_in_fifo_order wMem0 [(1, 10), (2, 20)] 2 (by decide) (by decide)

/-- C3: once `set()` has returned, the ready-check observes "already fired"
and the slow path refuses to suspend: `await_ready` is true, the state-level
`await_suspend` returns false leaving the state unchanged, and the awaiter
slow path also returns false — so every `await` after `set()` completes
immediately. -/
theorem after_set_await_never_suspends (s : State) (fuel n h : Nat) :
    ((s.set fuel).1.await_ready = true) ∧
    ((s.set fuel).1.await_suspend n = (false, (s.set fuel).1)) ∧
    ((awaiterSuspend (s.set fuel).1 n h).1 = false) := by
  refine ⟨rfl, await_suspend_fired _ n rfl, ?_⟩
  rw [awaiterSuspend_fired _ n h rfl]

/-- C4: in every state reachable from a fresh event, the cursor `last` is
null iff `set()` occurred in the trace; once null it stays null under every
operation, and an await on such a state does not suspend and does not link
(head and cursor untouched). -/
theorem appendSlot_null_iff_set_called :
    (∀ (mem : Nat → Node) (ops : List Op),
       ((run mem ops).last = none ↔ hasSet ops = true)) ∧
    (∀ (s : State) (op : Op), s.last = none → (applyOp s op).last = none) ∧
    (∀ (s : State) (n h : Nat), s.last = none →
       (awaiterSuspend s n h).1 = false ∧
       (awaiterSuspend s n h).2.head = s.head ∧
       (awaiterSuspend s n h).2.last = none) := by
  refine ⟨run_last, ?_, ?_⟩
  · intro s op h
    rw [applyOp_last]
    exact Or.inl h
  · intro s n h hl
    rw [awaiterSuspend_fired s n h hl]
    exact ⟨rfl, rfl, hl⟩

/-- C5: a `set()` on an event whose trace already fired it invokes no
callback and leaves the state unchanged. -/
theorem second_set_is_noop (mem : Nat → Node) (ops : List Op) (fuel : Nat)
    (h : hasSet ops = true) :
    (run mem ops).set fuel = (run mem ops, []) :=
  set_of_fired (run mem ops) fuel (run_fired mem ops h)

/-- Witness for C5: a second `set` after one `set` is a no-op. -/
theorem second_set_is_noop_witness :
    hasSet [Op.setOp 0] = true ∧
    (run wMem0 [Op.setOp 0]).set 3 = (run wMem0 [Op.setOp 0], []) :=
  ⟨rfl, second_set_is_noop wMem0 [Op.setOp 0] 3 rfl⟩

/-- C6: `await_suspend` re-reads the cursor under the lock; if null it
returns false (do not suspend); otherwise it writes the node's address into
the location the cursor points at, moves the cursor to the node's `next`
field, nulls the node's `next`, and returns true. -/
theorem await_suspend_performs_link_steps (s : State) (n : Nat) :
    (s.last = none → s.await_suspend n = (false, s)) ∧
    (∀ p, s.last = some p → p ≠ some n →
      (s.await_suspend n).1 = true ∧
      readSlot (s.await_suspend n).2 p = some n ∧
      (s.await_suspend n).2.last = some (some n) ∧
      ((s.await_suspend n).2.nodes n).next = none) := by
  refine ⟨fun h => await_suspend_fired s n h, ?_⟩
  intro p hp hne
  cases p with
  | none =>
    rw [await_suspend_eq_headSlot s n hp]
    refine ⟨rfl, rfl, rfl, ?_⟩
    show (setNext s.nodes n none n).next = none
    rw [setNext_self]
  | some t =>
    have htn : t ≠ n := fun e => hne (by rw [e])
    rw [await_suspend_eq_tailSlot s n t hp]
    refine ⟨rfl, ?_, rfl, ?_⟩
    · show (setNext (setNext s.nodes t (some n)) n none t).next = some n
      rw [setNext_other _ _ _ _ htn, setNext_self]
    · show (setNext (setNext s.nodes t (some n)) n none n).next = none
      rw [setNext_self]

/-- C7: the ready-check returns true exactly when the cursor is null, i.e.
exactly when the event has fired (a `set` occurred in the trace); it is a
pure read of the state. -/
theorem await_ready_iff_fired :
    (∀ s : State, (s.await_ready = true ↔ s.last = none)) ∧
    (∀ (mem : Nat → Node) (ops : List Op),
       ((run mem ops).await_ready = true ↔ hasSet ops = true)) := by
  have h1 : ∀ s : State, (s.await_ready = true ↔ s.last = none) := by
    intro s
    rw [State.await_ready, Option.isNone_iff_eq_none]
  refine ⟨h1, fun mem ops => ?_⟩
  rw [h1]
  exact run_last mem ops

/-- C8: the callbacks invoked by `set()` are computed entirely from the
locally captured detached-list pointer and the node fields along the chain —
any memory agreeing on the chain nodes produces the same invocation list, so
the walk never touches the shared state's fields again; and a reentrant
`set()` on the post-detach state invokes nothing and changes nothing. -/
theorem set_walk_uses_only_detached_data (s : State) (ws : List Nat)
    (fuel f2 : Nat) (mem2 : Nat → Node)
    (hch : chainB s.nodes s.head ws = true) (hfuel : ws.length ≤ fuel)
    (hag : ∀ i ∈ ws, mem2 i = s.nodes i) :
    (s.set fuel).2 = (walk mem2 fuel s.head).map (fun i => (mem2 i).handle) ∧
    (s.set fuel).1.set f2 = ((s.set fuel).1, []) := by
  have hch2 : chainB mem2 s.head ws = true := by
    rw [chainB_agree s.nodes mem2 ws s.head hag]
    exact hch
  have h1 := walk_of_chain s.nodes ws s.head fuel hch hfuel
  have h2 := walk_of_chain mem2 ws s.head fuel hch2 hfuel
  refine ⟨?_, set_of_fired _ f2 (firedWf_set s fuel)⟩
  show (walk s.nodes fuel s.head).map _ = _
  rw [h1, h2]
  exact List.map_congr_left (fun i hi => by rw [hag i hi])

/-- Witness for C8 on the concrete two-waiter state. -/
theorem set_walk_uses_only_detached_data_witness :
    (wState.set 2).2 = (walk wMem 2 wState.head).map (fun i => (wMem i).handle) ∧
    (wState.set 2).1.set 1 = ((wState.set 2).1, []) :=
  set_walk_uses_only_detached_data wState [1, 2] 2 1 wMem
    (by decide) (by decide) (fun i _ => rfl)

/-- C9: the wait-list well-formedness invariant. A fresh state represents
the empty list; `await_suspend` with a fresh node succeeds and extends the
represented list at the tail; `set` yields the fired shape; and every state
reached by a set-free trace of awaits on distinct nodes is well formed with
exactly those waiters in arrival order. -/
theorem wait_list_well_formed :
    (∀ mem : Nat → Node, unfiredWf (initState mem) []) ∧
    (∀ (s : State) (ws : List Nat) (n : Nat), unfiredWf s ws → n ∉ ws →
       (s.await_suspend n).1 = true ∧
       unfiredWf (s.await_suspend n).2 (ws ++ [n])) ∧
    (∀ (s : State) (fuel : Nat), firedWf (s.set fuel).1) ∧
    (∀ (mem : Nat → Node) (ops : List Op),
       (awaitIds ops).Nodup → hasSet ops = false →
       unfiredWf (run mem ops) (awaitIds ops)) := by
  refine ⟨init_wf, fun s ws n hwf hn => ?_, firedWf_set,
    fun mem ops hnd hns => ?_⟩
  · obtain ⟨h1, h2, _⟩ := await_suspend_wf s ws n hwf hn
    exact ⟨h1, h2⟩
  · have hres := foldl_unfiredWf ops (initState mem) []
      (init_wf mem) hns (by simp) hnd
    simpa using hres

/-- C10: on an already-fired event, `await_suspend` returns false and
changes nothing — shared state and node memory are returned untouched; on
the successful path, the only write to the caller's node is `next := null`
(its handle field is untouched by the state-level call). -/
theorem await_suspend_no_suspend_frame (s : State) (n : Nat) :
    (s.last = none → s.await_suspend n = (false, s)) ∧
    ((s.await_suspend n).1 = true →
      (s.await_suspend n).2.nodes n =
        { next := none, handle := (s.nodes n).handle }) := by
  refine ⟨fun h => await_suspend_fired s n h, fun h => ?_⟩
  cases hl : s.last with
  | none =>
    rw [await_suspend_fired s n hl] at h
    simp at h
  | some p =>
    cases p with
    | none =>
      rw [await_suspend_eq_headSlot s n hl]
      show setNext s.nodes n none n = _
      rw [setNext_self]
    | some t =>
      rw [await_suspend_eq_tailSlot s n t hl]
      show setNext (setNext s.nodes t (some n)) n none n = _
      rw [setNext_self]
      show ({ next := none,
              handle := (setNext s.nodes t (some n) n).handle } : Node) = _
      rw [setNext_handle]

end TFcoro
